import Mathlib

/-!
Shallow embedding of `quodlibet/library/base.py`: the keyed `Library`
collection (`add` / `remove` / `changed` / the `_load_*` ingestion paths),
the pickling persistence mixin (`load` / `save` with atomic writes and
corruption quarantine) and the `iter_paths` directory scanner.

Modelling conventions:
* a Python `dict` is an association list with the dict's assignment /
  deletion semantics (`dinsert` replaces in place or appends, `ddel`
  fails like `del` on an absent key);
* a Python `set` is a `Finset`;
* GObject signal emission is an append-only event list on the state;
* the filesystem is a function from path strings to optional byte blobs;
* external collaborators (the audio-file codec `dump_audio_files` /
  `load_audio_files`, `os.path.realpath`, `mkdir` success) are explicit
  parameters, and a fallible external call is passed as its outcome.
-/

namespace QL

/-- An item stored in a library.  The core only requires a `.key`
attribute; `payload` stands for all the other, opaque, fields of the
object (so two distinct items may in principle carry the same key). -/
structure Item where
  key : Nat
  payload : Nat
deriving DecidableEq

/-- The `_contents` dict: an association list from keys to items. -/
abbrev Contents := List (Nat × Item)

/-- Python dict lookup `m[k]` (as an `Option`). -/
def keyGet : Contents → Nat → Option Item
  | [], _ => none
  | p :: rest, k => if p.1 = k then some p.2 else keyGet rest k

/-- Python dict membership `k in m`. -/
def keyMem (m : Contents) (k : Nat) : Bool :=
  (keyGet m k).isSome

/-- Python dict assignment `m[k] = v`: replace the entry in place if the
key is present, else append a new entry. -/
def dinsert : Contents → Nat → Item → Contents
  | [], k, v => [(k, v)]
  | p :: rest, k, v => if p.1 = k then (k, v) :: rest else p :: dinsert rest k v

/-- Removal of the entry for `k` (the effect of a successful `del m[k]`). -/
def derase : Contents → Nat → Contents
  | [], _ => []
  | p :: rest, k => if p.1 = k then rest else p :: derase rest k

/-- Python `del m[k]`: `none` models the `KeyError` raised when the key is
absent. -/
def ddel (m : Contents) (k : Nat) : Option Contents :=
  if keyMem m k then some (derase m k) else none

/-- The keys of the mapping are pairwise distinct (every genuine Python
dict satisfies this structurally). -/
def NodupKeys (m : Contents) : Prop :=
  (m.map (fun p => p.1)).Nodup

instance (m : Contents) : Decidable (NodupKeys m) := by
  unfold NodupKeys; infer_instance

/-- Invariant I1 of the spec: every entry is stored under its item's own
key. -/
def Keyed (m : Contents) : Prop :=
  ∀ p ∈ m, p.2.key = p.1

instance (m : Contents) : Decidable (Keyed m) := by
  unfold Keyed; infer_instance

/-- A Python value passed to `Library.__contains__`: a bare key (such as a
path string), an item object carrying a `.key` attribute, or any other
object without a `.key` attribute. -/
inductive PyVal where
  | keyVal (k : Nat)
  | itemVal (it : Item)
  | bare (n : Nat)
deriving DecidableEq

/-- Python equality between a probe value and a stored dict key: only a
bare key value can equal a stored key; item objects and keyless objects
are of a different type than the keys, so `==` is `False` for them. -/
def dictKeyEq : PyVal → Nat → Bool
  | .keyVal k, k' => decide (k = k')
  | .itemVal _, _ => false
  | .bare _, _ => false

/-- The `.key` attribute access: `none` models the `AttributeError` raised
when the value has no such attribute (bare keys are plain strings). -/
def keyAttr : PyVal → Option Nat
  | .keyVal _ => none
  | .itemVal it => some it.key
  | .bare _ => none

/-- A GObject signal emission of `Library`, plus the call into the
librarian's own `changed` method which the `changed` delegation performs. -/
inductive Event where
  | added (s : Finset Item)
  | removed (s : Finset Item)
  | changed (s : Finset Item)
  | delegatedChange (l : List Item)
deriving DecidableEq

/-- The external librarian (coordinator): all the core reads is its
`libraries` mapping, used to test `self in librarian.libraries.values()`;
we record the identities of the managed libraries. -/
structure Coordinator where
  managedIds : List Nat
deriving DecidableEq

/-- The observable state of one `Library`: its identity (for the
`self in ...` test), the optional librarian back-reference, the
`_contents` dict, the `dirty` flag, and the trace of emitted signals. -/
structure LibState where
  id : Nat
  librarian : Option Coordinator
  contents : Contents
  dirty : Bool
  events : List Event
deriving DecidableEq

namespace Library

/-- `Library.__contains__`: `item in self._contents or
item.key in self._contents`, with `AttributeError` (no `.key`) caught and
turned into `False`. -/
def contains (st : LibState) (x : PyVal) : Bool :=
  if st.contents.any (fun p => dictKeyEq x p.1) then true
  else
    match keyAttr x with
    | some k => keyMem st.contents k
    | none => false

/-- Membership of an item object (the form `add`, `remove` and `changed`
use in their filtering comprehensions). -/
def containsItem (st : LibState) (it : Item) : Bool :=
  contains st (.itemVal it)

/-- `self in self.librarian.libraries.values()` guarded by
`if self.librarian` — the delegation condition of `Library.changed`. -/
def isCoordinatorManaged (st : LibState) : Bool :=
  match st.librarian with
  | none => false
  | some c => decide (st.id ∈ c.managedIds)

/-- `Library._changed`: called by the `changed` method and by librarians;
returns on an empty set, otherwise sets `dirty` and emits `changed`. -/
def _changed (st : LibState) (items : Finset Item) : LibState :=
  if items = ∅ then st
  else { st with dirty := true, events := st.events ++ [Event.changed items] }

/-- `Library.changed`: returns on empty input; delegates to the
librarian's `changed` when one is registered and manages this library;
otherwise filters the input to the items actually in the library and
calls `_changed` on the (non-empty) result. -/
def changed (st : LibState) (items : List Item) : LibState :=
  if items.isEmpty then st
  else if isCoordinatorManaged st then
    { st with events := st.events ++ [Event.delegatedChange items] }
  else
    let fitems := (items.filter (fun it => containsItem st it)).toFinset
    if fitems = ∅ then st
    else _changed st fitems

/-- `Library._load_item`: load (add) one item into the library, marking
it dirty, without emitting a signal. -/
def _load_item (st : LibState) (it : Item) : LibState :=
  { st with dirty := true, contents := dinsert st.contents it.key it }

/-- `Library._load_init`: load many items into the library (on start),
inserting each into `_contents` under its own key; no signal is emitted
and — unlike `_load_item` — the `dirty` flag is not touched. -/
def _load_init (st : LibState) (items : List Item) : LibState :=
  { st with
    contents := items.foldl (fun m it => dinsert m it.key it) st.contents }

/-- `Library.get_content`: `list(self.values())`, the snapshot used
exclusively for persistence. -/
def get_content (st : LibState) : List Item :=
  st.contents.map (fun p => p.2)

/-- `Library.add`: build the set of input items not already in the
library; if it is empty return it unchanged, otherwise insert each
accepted item under its own key, set `dirty`, emit one `added` signal
carrying the accepted set, and return that set.  (The iteration order of
a Python set is arbitrary; the fold below fixes one order, which is
irrelevant to the resulting mapping because a set holds each item once.) -/
def add (st : LibState) (items : List Item) : LibState × Finset Item :=
  let acc := (items.filter (fun it => ! containsItem st it)).dedup
  if acc.isEmpty then (st, ∅)
  else
    ({ st with
        contents := acc.foldl (fun m it => dinsert m it.key it) st.contents,
        dirty := true,
        events := st.events ++ [Event.added acc.toFinset] },
      acc.toFinset)

/-- The `for item in items: del self._contents[item.key]` loop of
`Library.remove`: `none` models the `KeyError` a `del` of an absent key
would raise. -/
def delAll : Contents → List Item → Option Contents
  | m, [] => some m
  | m, it :: rest =>
    match ddel m it.key with
    | none => none
    | some m2 => delAll m2 rest

/-- `Library.remove`: build the set of input items that are in the
library; if it is empty return it unchanged, otherwise delete each by its
key, set `dirty`, emit one `removed` signal carrying the removed set, and
return that set. -/
def remove (st : LibState) (items : List Item) :
    Option (LibState × Finset Item) :=
  let rem := (items.filter (fun it => containsItem st it)).dedup
  if rem.isEmpty then some (st, ∅)
  else
    match delAll st.contents rem with
    | none => none
    | some m2 =>
      some ({ st with
          contents := m2,
          dirty := true,
          events := st.events ++ [Event.removed rem.toFinset] },
        rem.toFinset)

end Library

/-- Abbreviation for the insertion loop shared by `add` and `_load_init`. -/
def insAll (m : Contents) (l : List Item) : Contents :=
  l.foldl (fun m it => dinsert m it.key it) m

/-- Raw file contents. -/
abbrev Bytes := List Nat

/-- The filesystem: the readable byte contents at each path (`none` when
opening or reading the path fails, e.g. missing file or permission
denied). -/
abbrev Disk := String → Option Bytes

/-- `_load_items`: read the file — an unreadable file is logged and
yields the empty list — then decode the data with the external
`load_audio_files` (`decode`; `.error` is its `SerializationError`).  On
a decode error the raw bytes are copied aside to
`filename + ".not-valid"`, best effort: `copyOk = false` models an
`EnvironmentError` of that copy, which is itself only logged. -/
def _load_items (disk : Disk) (filename : String)
    (decode : Bytes → Except Unit (List Item)) (copyOk : Bool) :
    Disk × List Item :=
  match disk filename with
  | none => (disk, [])
  | some data =>
    match decode data with
    | .ok items => (disk, items)
    | .error _ =>
      (if copyOk then
          fun p => if p = filename ++ ".not-valid" then some data else disk p
        else disk, [])

/-- The state of a `PicklingLibrary`: the library plus the
`PicklingMixin`'s remembered default `filename`. -/
structure PickLib where
  lib : LibState
  filename : Option String

/-- `PicklingMixin.load`: record `filename` as the default save target,
read and decode the items via `_load_items`, and bulk-load them through
`_load_init` (so no signal fires).  Every failure is handled inside
`_load_items`, so the function is total: `load` never raises. -/
def load (pl : PickLib) (disk : Disk) (filename : String)
    (decode : Bytes → Except Unit (List Item)) (copyOk : Bool) :
    PickLib × Disk :=
  let r := _load_items disk filename decode copyOk
  ({ lib := Library._load_init pl.lib r.2, filename := some filename }, r.1)

/-- The two exception classes `PicklingMixin.save` handles:
`SerializationError` from `dump_audio_files` and `EnvironmentError` from
the filesystem. -/
inductive SaveErr where
  | ser
  | io
deriving DecidableEq

/-- Modelled from the spec: `atomic_save` (from `quodlibet.util.atomic`,
whose source is not part of this file's repository slice) writes to a
temporary file and renames it over `filename` only when the `with` body
completes successfully; when the body raises, the temporary file is
discarded and the bytes at `filename` are untouched, so no partially
written file is ever observable at `filename`.  The body's outcome is
passed explicitly: `.ok b` means the full payload `b` was produced and
written. -/
def atomic_save (disk : Disk) (filename : String)
    (body : Except SaveErr Bytes) : Disk × Option SaveErr :=
  match body with
  | .error e => (disk, some e)
  | .ok b => (fun p => if p = filename then some b else disk p, none)

/-- `if filename is None: filename = self.filename`. -/
def resolveName (fnArg : Option String) (deflt : Option String) :
    Option String :=
  match fnArg with
  | some f => some f
  | none => deflt

/-- `PicklingMixin.save`: resolve the target filename (`none` for both
the argument and the stored default models the resulting unhandled
`TypeError` of `os.path.dirname(None)`, the only exit of this method not
covered by an `except` clause), create the parent directory
(`mkdirOk = false`: the `EnvironmentError` is caught, logged, and the
attempt abandoned), then write `dump_audio_files(self.get_content())`
through `atomic_save` — an `encode` error models `SerializationError`,
`writeOk = false` an `EnvironmentError` during the write, both caught and
only logged — and only on the fully successful path does the `else:`
clause clear `dirty`. -/
def save (pl : PickLib) (disk : Disk) (fnArg : Option String)
    (encode : List Item → Except Unit Bytes) (mkdirOk writeOk : Bool) :
    Option (PickLib × Disk) :=
  match resolveName fnArg pl.filename with
  | none => none
  | some filename =>
    if mkdirOk = false then some (pl, disk)
    else
      let body : Except SaveErr Bytes :=
        match encode (Library.get_content pl.lib) with
        | .error _ => .error .ser
        | .ok b => if writeOk then .ok b else .error .io
      match atomic_save disk filename body with
      | (disk2, some _) => some (pl, disk2)
      | (disk2, none) =>
        some ({ pl with lib := { pl.lib with dirty := false } }, disk2)

/-- The basename of a path: everything after the last separator. -/
def basename (p : String) : String :=
  String.mk (p.data.foldl (fun acc c => if c = '/' then [] else acc ++ [c]) [])

/-- Modelled from the spec: `ishidden` (from `quodlibet.util.path`, whose
source is not part of this repository slice) implements the hidden-name
convention of the host platform: the path's basename starts with a dot. -/
def ishidden (p : String) : Bool :=
  match (basename p).data with
  | [] => false
  | c :: _ => c = '.'

/-- `os.path.join` for the absolute paths this scanner builds. -/
def pjoin (a b : String) : String := a ++ "/" ++ b

/-- The `skip` closure of `iter_paths`: hidden (when `skip_hidden` is
set), or starting with one of the raw `exclude` strings. -/
def skipPath (exclude : List String) (skip_hidden : Bool)
    (path : String) : Bool :=
  (skip_hidden && ishidden path) ||
    exclude.any (fun e => path.startsWith e)

/-- A directory tree as `os.walk` sees it: regular files and
subdirectories.  `os.walk` with default arguments never descends into a
directory symlink, so those are not modelled as directories; a symlinked
file is a file whose `realpath` image differs from its walked path. -/
inductive FSEntry where
  | file (name : String)
  | dir (name : String) (children : List FSEntry)

/-- The `fnames` loop body of `iter_paths` over one directory's entries:
for each file, test the joined full path with `skip`, dereference it with
`realpath` (`rp`), re-test the resolved path, and yield it when both
tests pass. -/
def iterFiles (rp : String → String) (exclude : List String)
    (skip_hidden : Bool) (dp : String) : List FSEntry → List String
  | [] => []
  | .file fn :: rest =>
    (let full := pjoin dp fn
     if skipPath exclude skip_hidden full then []
     else
       let r := rp full
       if skipPath exclude skip_hidden r then [] else [r])
    ++ iterFiles rp exclude skip_hidden dp rest
  | .dir _ _ :: rest => iterFiles rp exclude skip_hidden dp rest

/-- The descent of `os.walk` inside `iter_paths`: hidden subdirectories
are pruned from `dnames` (when `skip_hidden` is set) before being
walked; each walked subdirectory contributes its own files first and
then its subtrees. -/
def iterDirs (rp : String → String) (exclude : List String)
    (skip_hidden : Bool) : String → List FSEntry → List String
  | _, [] => []
  | dp, .file _ :: rest => iterDirs rp exclude skip_hidden dp rest
  | dp, .dir dn cs :: rest =>
    (if skip_hidden && ishidden (pjoin dp dn) then []
     else iterFiles rp exclude skip_hidden (pjoin dp dn) cs
        ++ iterDirs rp exclude skip_hidden (pjoin dp dn) cs)
    ++ iterDirs rp exclude skip_hidden dp rest

/-- One level of the walk: the directory's own files, then its walked
subtrees — exactly the order `os.walk(root)` produces top-down. -/
def iterLevel (rp : String → String) (exclude : List String)
    (skip_hidden : Bool) (dp : String) (entries : List FSEntry) :
    List String :=
  iterFiles rp exclude skip_hidden dp entries
    ++ iterDirs rp exclude skip_hidden dp entries

/-- `iter_paths(root, exclude, skip_hidden)` over the tree `entries`
rooted at `root`, with `rp` standing for `os.path.realpath`: yield
nothing when the root itself is hidden (and `skip_hidden` is set), else
walk the tree. -/
def iter_paths (rp : String → String) (root : String)
    (entries : List FSEntry) (exclude : List String)
    (skip_hidden : Bool) : List String :=
  if skip_hidden && ishidden root then []
  else iterLevel rp exclude skip_hidden root entries

/-- Every file of the tree, as full joined paths. -/
def allFiles : String → List FSEntry → List String
  | _, [] => []
  | dp, .file fn :: rest => pjoin dp fn :: allFiles dp rest
  | dp, .dir dn cs :: rest => allFiles (pjoin dp dn) cs ++ allFiles dp rest

/-- The files of the tree that lie under no hidden directory of the
tree (checking every ancestor directory below the walk root). -/
def hiddenFreeFiles : String → List FSEntry → List String
  | _, [] => []
  | dp, .file fn :: rest => pjoin dp fn :: hiddenFreeFiles dp rest
  | dp, .dir dn cs :: rest =>
    (if ishidden (pjoin dp dn) then []
     else hiddenFreeFiles (pjoin dp dn) cs) ++ hiddenFreeFiles dp rest

@[simp] theorem keyGet_nil (k : Nat) : keyGet [] k = none := rfl

@[simp] theorem keyGet_cons (p : Nat × Item) (rest : Contents) (k : Nat) :
    keyGet (p :: rest) k = if p.1 = k then some p.2 else keyGet rest k := rfl

@[simp] theorem dinsert_nil (k : Nat) (v : Item) :
    dinsert [] k v = [(k, v)] := rfl

@[simp] theorem dinsert_cons (p : Nat × Item) (rest : Contents) (k : Nat)
    (v : Item) :
    dinsert (p :: rest) k v =
      if p.1 = k then (k, v) :: rest else p :: dinsert rest k v := rfl

@[simp] theorem derase_nil (k : Nat) : derase [] k = [] := rfl

@[simp] theorem derase_cons (p : Nat × Item) (rest : Contents) (k : Nat) :
    derase (p :: rest) k = if p.1 = k then rest else p :: derase rest k := rfl

theorem keyGet_dinsert (m : Contents) (k k' : Nat) (v : Item) :
    keyGet (dinsert m k v) k' = if k' = k then some v else keyGet m k' := by
  induction m with
  | nil =>
    by_cases h : k' = k
    · rw [dinsert_nil, keyGet_cons, if_pos h.symm, if_pos h]
    · rw [dinsert_nil, keyGet_cons, if_neg (fun hh => h hh.symm), if_neg h,
        keyGet_nil]
  | cons p rest ih =>
    by_cases hpk : p.1 = k
    · rw [dinsert_cons, if_pos hpk, keyGet_cons, keyGet_cons]
      by_cases h : k' = k
      · rw [if_pos h.symm, if_pos h]
      · rw [if_neg (fun hh => h hh.symm), if_neg h,
          if_neg (fun hh : p.1 = k' => h (hh.symm.trans hpk))]
    · rw [dinsert_cons, if_neg hpk, keyGet_cons, keyGet_cons, ih]
      by_cases hpk' : p.1 = k'
      · rw [if_pos hpk', if_pos hpk',
          if_neg (fun hh : k' = k => hpk (hpk'.trans hh))]
      · rw [if_neg hpk', if_neg hpk']

theorem keyMem_iff_mem_keys (m : Contents) (k : Nat) :
    keyMem m k = true ↔ k ∈ m.map (fun p => p.1) := by
  induction m with
  | nil => simp [keyMem]
  | cons p rest ih =>
    by_cases hpk : p.1 = k
    · simp [keyMem, hpk]
    · have hstep : keyMem (p :: rest) k = keyMem rest k := by
        simp [keyMem, hpk]
      rw [List.map_cons, List.mem_cons, hstep, ih]
      constructor
      · intro hh; right; exact hh
      · intro hh
        rcases hh with hh | hh
        · exact absurd hh.symm hpk
        · exact hh

theorem keyMem_dinsert (m : Contents) (k k' : Nat) (v : Item) :
    keyMem (dinsert m k v) k' = (decide (k' = k) || keyMem m k') := by
  by_cases h : k' = k <;> simp [keyMem, keyGet_dinsert, h]

theorem derase_sublist (m : Contents) (k : Nat) : (derase m k).Sublist m := by
  induction m with
  | nil => simp
  | cons p rest ih =>
    by_cases hpk : p.1 = k
    · rw [derase_cons, if_pos hpk]
      exact (List.sublist_cons_self p rest)
    · rw [derase_cons, if_neg hpk]
      exact ih.cons₂ p

theorem mem_derase_subset (m : Contents) (k : Nat) (p : Nat × Item)
    (hp : p ∈ derase m k) : p ∈ m :=
  (derase_sublist m k).mem hp

theorem keyGet_derase_ne (m : Contents) (k k' : Nat) (h : k' ≠ k) :
    keyGet (derase m k) k' = keyGet m k' := by
  induction m with
  | nil => simp
  | cons p rest ih =>
    by_cases hpk : p.1 = k
    · rw [derase_cons, if_pos hpk, keyGet_cons,
        if_neg (fun hh : p.1 = k' => h (hh.symm.trans hpk))]
    · rw [derase_cons, if_neg hpk, keyGet_cons, keyGet_cons, ih]

theorem keyGet_derase_self (m : Contents) (k : Nat) (h : NodupKeys m) :
    keyGet (derase m k) k = none := by
  induction m with
  | nil => simp
  | cons p rest ih =>
    rw [NodupKeys, List.map_cons, List.nodup_cons] at h
    by_cases hpk : p.1 = k
    · rw [derase_cons, if_pos hpk]
      cases hg : keyGet rest k with
      | none => rfl
      | some v =>
        exact absurd (hpk ▸ (keyMem_iff_mem_keys rest k).mp
          (by simp [keyMem, hg])) h.1
    · rw [derase_cons, if_neg hpk, keyGet_cons, if_neg hpk]
      exact ih h.2

theorem nodupKeys_derase (m : Contents) (k : Nat) (h : NodupKeys m) :
    NodupKeys (derase m k) := by
  rw [NodupKeys] at h ⊢
  exact ((derase_sublist m k).map (fun p => p.1)).nodup h

theorem map_keys_dinsert (m : Contents) (k : Nat) (v : Item) :
    (dinsert m k v).map (fun p => p.1) =
      if keyMem m k then m.map (fun p => p.1)
      else m.map (fun p => p.1) ++ [k] := by
  induction m with
  | nil => simp [keyMem]
  | cons p rest ih =>
    by_cases hpk : p.1 = k
    · simp [keyMem, hpk]
    · rw [dinsert_cons, if_neg hpk, List.map_cons, ih]
      have hmem : keyMem (p :: rest) k = keyMem rest k := by
        simp [keyMem, hpk]
      rw [hmem]
      by_cases h : keyMem rest k <;> simp [h]

theorem nodupKeys_dinsert (m : Contents) (k : Nat) (v : Item)
    (h : NodupKeys m) : NodupKeys (dinsert m k v) := by
  rw [NodupKeys, map_keys_dinsert]
  by_cases hm : keyMem m k
  · rw [if_pos hm]; exact h
  · rw [if_neg hm]
    refine List.Nodup.append h (List.nodup_singleton k) ?_
    intro x hx hx2
    rw [List.mem_singleton] at hx2
    subst hx2
    exact hm ((keyMem_iff_mem_keys m x).mpr hx)

theorem mem_dinsert (m : Contents) (k : Nat) (v : Item) (p : Nat × Item)
    (hp : p ∈ dinsert m k v) : p ∈ m ∨ p = (k, v) := by
  induction m with
  | nil => right; simpa using hp
  | cons q rest ih =>
    by_cases hq : q.1 = k
    · rw [dinsert_cons, if_pos hq, List.mem_cons] at hp
      rcases hp with hp | hp
      · right; exact hp
      · left; exact List.mem_cons_of_mem q hp
    · rw [dinsert_cons, if_neg hq, List.mem_cons] at hp
      rcases hp with hp | hp
      · left; exact hp ▸ List.mem_cons_self q rest
      · rcases ih hp with hh | hh
        · left; exact List.mem_cons_of_mem q hh
        · right; exact hh

theorem keyed_dinsert (m : Contents) (v : Item) (h : Keyed m) :
    Keyed (dinsert m v.key v) := by
  intro p hp
  rcases mem_dinsert m v.key v p hp with hh | hh
  · exact h p hh
  · rw [hh]

theorem keyed_derase (m : Contents) (k : Nat) (h : Keyed m) :
    Keyed (derase m k) := fun p hp => h p (mem_derase_subset m k p hp)

theorem containsItem_eq_keyMem (st : LibState) (it : Item) :
    Library.containsItem st it = keyMem st.contents it.key := by
  simp [Library.containsItem, Library.contains, dictKeyEq, keyAttr]

@[simp] theorem insAll_nil (m : Contents) : insAll m [] = m := rfl

@[simp] theorem insAll_cons (m : Contents) (a : Item) (l : List Item) :
    insAll m (a :: l) = insAll (dinsert m a.key a) l := rfl

theorem keyGet_insAll_notin (m : Contents) (l : List Item) (k : Nat)
    (h : ∀ it ∈ l, it.key ≠ k) :
    keyGet (insAll m l) k = keyGet m k := by
  induction l generalizing m with
  | nil => rfl
  | cons a rest ih =>
    rw [insAll_cons, ih _ (fun it hit => h it (List.mem_cons_of_mem a hit)),
      keyGet_dinsert, if_neg (fun hh : k = a.key =>
        h a (List.mem_cons_self a rest) hh.symm)]

theorem keyGet_insAll_mem (m : Contents) (l : List Item) (it : Item)
    (hit : it ∈ l) (hinj : ∀ a ∈ l, ∀ b ∈ l, a.key = b.key → a = b) :
    keyGet (insAll m l) it.key = some it := by
  induction l generalizing m with
  | nil => cases hit
  | cons a rest ih =>
    by_cases hr : it ∈ rest
    · exact ih (dinsert m a.key a) hr
        (fun x hx y hy => hinj x (List.mem_cons_of_mem a hx)
          y (List.mem_cons_of_mem a hy))
    · have hia : it = a := by
        rcases List.mem_cons.mp hit with hh | hh
        · exact hh
        · exact absurd hh hr
      subst hia
      have hrk : ∀ b ∈ rest, b.key ≠ it.key := by
        intro b hb hbk
        exact hr ((hinj b (List.mem_cons_of_mem it hb)
          it (List.mem_cons_self it rest) hbk) ▸ hb)
      rw [insAll_cons, keyGet_insAll_notin _ rest it.key hrk,
        keyGet_dinsert, if_pos rfl]

theorem keyMem_insAll (m : Contents) (l : List Item) (k : Nat) :
    keyMem (insAll m l) k =
      (keyMem m k || l.any (fun it => decide (it.key = k))) := by
  induction l generalizing m with
  | nil => simp
  | cons a rest ih =>
    rw [insAll_cons, ih, keyMem_dinsert]
    by_cases h : a.key = k
    · simp [h]
    · have h2 : (decide (k = a.key) : Bool) = false := by
        simpa using fun hh : k = a.key => h hh.symm
      have h3 : (decide (a.key = k) : Bool) = false := by simpa using h
      rw [h2, Bool.false_or, List.any_cons, h3, Bool.false_or]

theorem nodupKeys_insAll (m : Contents) (l : List Item)
    (h : NodupKeys m) : NodupKeys (insAll m l) := by
  induction l generalizing m with
  | nil => exact h
  | cons a rest ih => exact ih _ (nodupKeys_dinsert m a.key a h)

theorem keyed_insAll (m : Contents) (l : List Item) (h : Keyed m) :
    Keyed (insAll m l) := by
  induction l generalizing m with
  | nil => exact h
  | cons a rest ih => exact ih _ (keyed_dinsert m a h)

theorem delAll_keyed (l : List Item) (m m2 : Contents) (h : Keyed m)
    (hd : Library.delAll m l = some m2) : Keyed m2 := by
  induction l generalizing m with
  | nil =>
    simp only [Library.delAll, Option.some.injEq] at hd
    exact hd ▸ h
  | cons a rest ih =>
    simp only [Library.delAll] at hd
    cases hdd : ddel m a.key with
    | none => rw [hdd] at hd; cases hd
    | some m1 =>
      rw [hdd] at hd
      have hm1 : m1 = derase m a.key := by
        by_cases hmem : keyMem m a.key
        · have := hdd
          rw [ddel, if_pos hmem, Option.some.injEq] at this
          exact this.symm
        · rw [ddel, if_neg hmem] at hdd; cases hdd
      exact ih m1 (hm1 ▸ keyed_derase m a.key h) hd

theorem delAll_spec (l : List Item) (m : Contents)
    (hnd : NodupKeys m)
    (hmem : ∀ it ∈ l, keyMem m it.key = true)
    (hinj : ∀ a ∈ l, ∀ b ∈ l, a.key = b.key → a = b)
    (hnodup : l.Nodup) :
    ∃ m2, Library.delAll m l = some m2 ∧ NodupKeys m2 ∧
      ∀ k, keyGet m2 k =
        if l.any (fun it => decide (it.key = k)) then none else keyGet m k := by
  induction l generalizing m with
  | nil => exact ⟨m, rfl, hnd, fun k => by simp⟩
  | cons a rest ih =>
    have hka : keyMem m a.key = true := hmem a (List.mem_cons_self a rest)
    have hdd : ddel m a.key = some (derase m a.key) := by simp [ddel, hka]
    have hrest : ∀ b ∈ rest, b.key ≠ a.key := by
      intro b hb hbk
      have : b = a := hinj b (List.mem_cons_of_mem a hb)
        a (List.mem_cons_self a rest) hbk
      exact (List.nodup_cons.mp hnodup).1 (this ▸ hb)
    obtain ⟨m2, h1, h2, h3⟩ := ih (derase m a.key)
      (nodupKeys_derase m a.key hnd)
      (fun b hb => by
        rw [keyMem, keyGet_derase_ne m a.key b.key (hrest b hb)]
        exact hmem b (List.mem_cons_of_mem a hb))
      (fun x hx y hy => hinj x (List.mem_cons_of_mem a hx)
        y (List.mem_cons_of_mem a hy))
      (List.nodup_cons.mp hnodup).2
    refine ⟨m2, ?_, h2, ?_⟩
    · simp only [Library.delAll, hdd]
      exact h1
    · intro k
      rw [h3 k]
      by_cases hk : a.key = k
      · subst hk
        have hany : rest.any (fun it => decide (it.key = a.key)) = false := by
          rw [List.any_eq_false]
          intro b hb
          simpa using hrest b hb
        rw [hany, if_neg (by simp), if_pos (by simp),
          keyGet_derase_self m a.key hnd]
      · have hAk : (decide (a.key = k) : Bool) = false := by simpa using hk
        by_cases hr : rest.any (fun it => decide (it.key = k))
        · simp [hr, hAk]
        · rw [if_neg hr, if_neg (by simp [hr, hAk]),
            keyGet_derase_ne m a.key k (fun hh => hk hh.symm)]

theorem keyGet_eq_some_mem (m : Contents) (k : Nat) (v : Item)
    (h : keyGet m k = some v) : (k, v) ∈ m := by
  induction m with
  | nil => cases h
  | cons p rest ih =>
    by_cases hpk : p.1 = k
    · rw [keyGet_cons, if_pos hpk, Option.some.injEq] at h
      have : p = (k, v) := Prod.ext hpk h
      exact this ▸ List.mem_cons_self p rest
    · rw [keyGet_cons, if_neg hpk] at h
      exact List.mem_cons_of_mem p (ih h)

/-- C10: for every argument that is not a dict key present in `contents`
and exposes no `.key` attribute, `Library.__contains__` returns `False`
instead of raising (the `AttributeError` of the `.key` access is caught
by the `try`/`except` and turned into `False`; in the embedding the
function is total, so no input can raise). -/
theorem contains_no_key_false (st : LibState) (x : PyVal)
    (hkey : st.contents.any (fun p => dictKeyEq x p.1) = false)
    (hattr : keyAttr x = none) :
    Library.contains st x = false := by
  simp [Library.contains, hkey, hattr]

theorem contains_no_key_false_witness :
    (([(1, ⟨1, 5⟩)] : Contents).any (fun p => dictKeyEq (.bare 7) p.1)
        = false) ∧
    Library.contains ⟨0, none, [(1, ⟨1, 5⟩)], false, []⟩ (.bare 7) = false :=
  ⟨by decide,
    contains_no_key_false ⟨0, none, [(1, ⟨1, 5⟩)], false, []⟩ (.bare 7)
      (by decide) (by decide)⟩

/-- C4 counterexample: `_load_init` inserts the item but does not mark
the library dirty, contradicting the claim that the bulk
startup-restoration path sets `dirty`. -/
theorem load_init_dirty_cx :
    keyGet (Library._load_init ⟨0, none, [], false, []⟩
        [⟨1, 9⟩]).contents 1 = some ⟨1, 9⟩ ∧
    (Library._load_init ⟨0, none, [], false, []⟩ [⟨1, 9⟩]).dirty = false := by
  constructor
  · rfl
  · rfl

/-- C4 (amended): `_load_init` inserts each item directly into the
contents mapping under its own key and fires no signals, leaving `dirty`
unchanged; it is the single-item `_load_item` path that marks the library
dirty (also without firing signals). -/
theorem load_init_spec (st : LibState) (items : List Item) (it : Item)
    (hinj : ∀ a ∈ items, ∀ b ∈ items, a.key = b.key → a = b) :
    (Library._load_init st items).dirty = st.dirty ∧
    (Library._load_init st items).events = st.events ∧
    (∀ a ∈ items,
        keyGet (Library._load_init st items).contents a.key = some a) ∧
    (∀ k, (∀ a ∈ items, a.key ≠ k) →
        keyGet (Library._load_init st items).contents k =
          keyGet st.contents k) ∧
    (Library._load_item st it).dirty = true ∧
    (Library._load_item st it).events = st.events ∧
    keyGet (Library._load_item st it).contents it.key = some it := by
  refine ⟨rfl, rfl, ?_, ?_, rfl, rfl, ?_⟩
  · intro a ha
    exact keyGet_insAll_mem st.contents items a ha hinj
  · intro k hk
    exact keyGet_insAll_notin st.contents items k hk
  · rw [Library._load_item]
    simp only
    rw [keyGet_dinsert, if_pos rfl]

theorem load_init_spec_witness :
    (∀ a ∈ [(⟨1, 9⟩ : Item), ⟨2, 3⟩], ∀ b ∈ [(⟨1, 9⟩ : Item), ⟨2, 3⟩],
        a.key = b.key → a = b) ∧
    keyGet (Library._load_init ⟨0, none, [], false, []⟩
        [⟨1, 9⟩, ⟨2, 3⟩]).contents 2 = some ⟨2, 3⟩ :=
  ⟨by decide,
    by
      have h := (load_init_spec ⟨0, none, [], false, []⟩
        [⟨1, 9⟩, ⟨2, 3⟩] ⟨5, 5⟩ (by decide)).2.2.1
      exact h ⟨2, 3⟩ (by decide)⟩

/-- C8: the keying invariant I1 is preserved by every mutating operation:
from a state whose contents are consistently keyed, `add`, `remove` (when
it completes), `_load_item` and `_load_init` all yield consistently keyed
contents. -/
theorem keyed_invariant (st : LibState) (items : List Item) (it : Item)
    (h : Keyed st.contents) :
    Keyed (Library.add st items).1.contents ∧
    (∀ r, Library.remove st items = some r → Keyed r.1.contents) ∧
    Keyed (Library._load_item st it).contents ∧
    Keyed (Library._load_init st items).contents := by
  refine ⟨?_, ?_, ?_, ?_⟩
  · by_cases hacc :
        ((items.filter (fun b => ! Library.containsItem st b)).dedup).isEmpty
    · simp only [Library.add, hacc, if_pos]
      exact h
    · simp only [Library.add, hacc]
      rw [if_neg (by simp [hacc])]
      exact keyed_insAll st.contents _ h
  · intro r hr
    by_cases hrem :
        ((items.filter (fun b => Library.containsItem st b)).dedup).isEmpty
    · simp only [Library.remove, hrem, if_pos, Option.some.injEq] at hr
      rw [← hr]
      exact h
    · simp only [Library.remove, hrem] at hr
      rw [if_neg (by simp [hrem])] at hr
      cases hda : Library.delAll st.contents
          ((items.filter (fun b => Library.containsItem st b)).dedup) with
      | none => rw [hda] at hr; cases hr
      | some m2 =>
        rw [hda, Option.some.injEq] at hr
        rw [← hr]
        exact delAll_keyed _ st.contents m2 h hda
  · exact keyed_dinsert st.contents it h
  · exact keyed_insAll st.contents items h

theorem keyed_invariant_witness :
    Keyed ([(1, ⟨1, 5⟩)] : Contents) ∧
    Keyed (Library.add ⟨0, none, [(1, ⟨1, 5⟩)], false, []⟩
        [⟨2, 4⟩]).1.contents :=
  ⟨by decide,
    (keyed_invariant ⟨0, none, [(1, ⟨1, 5⟩)], false, []⟩
      [⟨2, 4⟩] ⟨3, 0⟩ (by decide)).1⟩

/-- C3: for a non-empty item collection, `changed` delegates to the
librarian exactly when one is registered and manages this library
(first conjunct: the delegation test's value, with the no-coordinator and
coordinator-not-managing cases both mapping to local emission); when it
does delegate it only calls the librarian's `changed`; otherwise it
filters the input to items currently present and either does nothing
(empty filtered set) or sets `dirty` and emits one `changed` signal
carrying the filtered set.  The function is total, so the
unmanaged-coordinator case raises no error. -/
theorem changed_spec (st : LibState) (items : List Item) (hne : items ≠ []) :
    ((st.librarian = none ∨
        ∃ c, st.librarian = some c ∧ st.id ∉ c.managedIds) ↔
      Library.isCoordinatorManaged st = false) ∧
    (Library.isCoordinatorManaged st = true →
      Library.changed st items =
        { st with events := st.events ++ [Event.delegatedChange items] }) ∧
    (Library.isCoordinatorManaged st = false →
      ((items.filter (fun b => Library.containsItem st b)).toFinset = ∅ →
          Library.changed st items = st) ∧
      ((items.filter (fun b => Library.containsItem st b)).toFinset ≠ ∅ →
          Library.changed st items =
            LibState.mk st.id st.librarian st.contents true
              (st.events ++
                [Event.changed
                  (items.filter
                    (fun b => Library.containsItem st b)).toFinset]))) := by
  have hie : items.isEmpty = false := by
    simpa [List.isEmpty_iff] using hne
  refine ⟨?_, ?_, ?_⟩
  · cases hl : st.librarian with
    | none => simp [Library.isCoordinatorManaged, hl]
    | some c =>
      simp only [Library.isCoordinatorManaged, hl]
      constructor
      · intro hh
        rcases hh with hh | ⟨c2, hc2, hc3⟩
        · cases hh
        · rw [Option.some.injEq] at hc2
          simpa [hc2] using hc3
      · intro hh
        right
        exact ⟨c, rfl, by simpa using hh⟩
  · intro hman
    simp [Library.changed, hie, hman]
  · intro hman
    constructor
    · intro hfit
      simp [Library.changed, hie, hman, hfit]
    · intro hfit
      have hfit2 : Finset.filter (fun x => Library.containsItem st x = true)
          items.toFinset ≠ ∅ := by
        simpa [List.toFinset_filter] using hfit
      simp [Library.changed, hie, hman, hfit2, Library._changed,
        List.toFinset_filter]

theorem add_of_all_present (st2 : LibState) (items : List Item)
    (h : ∀ a ∈ items, Library.containsItem st2 a = true) :
    Library.add st2 items = (st2, (∅ : Finset Item)) := by
  have hf : items.filter (fun b => ! Library.containsItem st2 b) = [] :=
    List.filter_eq_nil_iff.mpr (fun a ha => by simp [h a ha])
  simp [Library.add, hf]

/-- C1: over well-keyed input (distinct items carry distinct keys) and a
consistently keyed state, `add` accepts exactly the input items not
already present, inserts each accepted item under its own key leaving all
other keys untouched, sets `dirty` and emits exactly one `added` signal
carrying exactly the accepted set when that set is non-empty, and returns
the accepted set; when every input item is already present the state is
returned unchanged (no mutation, no signal) with the empty set.
Presence is by key, so it accepts any item equal to a contained item
(sixth conjunct) as well as a contained key; a second `add` of the same
items accepts nothing, emits nothing and changes nothing (last two
conjuncts). -/
theorem add_spec (st : LibState) (items : List Item)
    (hinj : ∀ a ∈ items, ∀ b ∈ items, a.key = b.key → a = b)
    (hkeyed : Keyed st.contents) :
    (∀ it, it ∈ (Library.add st items).2 ↔
        it ∈ items ∧ Library.containsItem st it = false) ∧
    (∀ it ∈ (Library.add st items).2,
        keyGet (Library.add st items).1.contents it.key = some it) ∧
    (∀ k, (∀ it ∈ (Library.add st items).2, it.key ≠ k) →
        keyGet (Library.add st items).1.contents k = keyGet st.contents k) ∧
    ((Library.add st items).2 ≠ ∅ →
        (Library.add st items).1.dirty = true ∧
        (Library.add st items).1.events =
          st.events ++ [Event.added (Library.add st items).2]) ∧
    ((Library.add st items).2 = ∅ → (Library.add st items).1 = st) ∧
    (∀ k it', keyGet st.contents k = some it' →
        Library.containsItem st it' = true) ∧
    (Library.add (Library.add st items).1 items).2 = ∅ ∧
    (Library.add (Library.add st items).1 items).1 =
      (Library.add st items).1 := by
  have hcont : ∀ k it', keyGet st.contents k = some it' →
      Library.containsItem st it' = true := by
    intro k it' hg
    have hmem := keyGet_eq_some_mem st.contents k it' hg
    have hk : it'.key = k := hkeyed _ hmem
    rw [containsItem_eq_keyMem, keyMem, hk, hg]
    rfl
  by_cases hacc :
      ((items.filter (fun b => ! Library.containsItem st b)).dedup).isEmpty
  · have hadd : Library.add st items = (st, (∅ : Finset Item)) := by
      simp [Library.add, hacc]
    have hall : ∀ a ∈ items, Library.containsItem st a = true := by
      have h1 : items.filter (fun b => ! Library.containsItem st b) = [] :=
        (List.dedup_eq_nil _).mp (List.isEmpty_iff.mp hacc)
      intro a ha
      have := List.filter_eq_nil_iff.mp h1 a ha
      simpa using this
    refine ⟨?_, ?_, ?_, ?_, ?_, hcont, ?_, ?_⟩
    · intro it
      rw [hadd]
      simp only [Finset.not_mem_empty, false_iff]
      rintro ⟨hit, hc⟩
      rw [hall it hit] at hc
      cases hc
    · intro it hit
      rw [hadd] at hit
      simp at hit
    · intro k _
      rw [hadd]
    · intro h
      rw [hadd] at h
      exact absurd rfl h
    · intro _
      rw [hadd]
    · have h51 : (Library.add st items).1 = st := by rw [hadd]
      rw [h51, add_of_all_present st items hall]
    · have h51 : (Library.add st items).1 = st := by rw [hadd]
      rw [h51, add_of_all_present st items hall]
  · have hadd : Library.add st items =
        (LibState.mk st.id st.librarian
            (insAll st.contents
              ((items.filter (fun b => ! Library.containsItem st b)).dedup))
            true
            (st.events ++
              [Event.added
                ((items.filter
                  (fun b => ! Library.containsItem st b)).dedup).toFinset]),
          ((items.filter
            (fun b => ! Library.containsItem st b)).dedup).toFinset) := by
      simp [Library.add, hacc, insAll]
    have hmemacc : ∀ it,
        it ∈ (items.filter (fun b => ! Library.containsItem st b)).dedup ↔
          it ∈ items ∧ Library.containsItem st it = false := by
      intro it
      rw [List.mem_dedup, List.mem_filter]
      simp
    have hsub : ∀ a ∈ (items.filter
        (fun b => ! Library.containsItem st b)).dedup, a ∈ items :=
      fun a ha => ((hmemacc a).mp ha).1
    have hinj2 : ∀ a ∈ (items.filter
          (fun b => ! Library.containsItem st b)).dedup,
        ∀ b ∈ (items.filter
          (fun b => ! Library.containsItem st b)).dedup,
        a.key = b.key → a = b :=
      fun a ha b hb => hinj a (hsub a ha) b (hsub b hb)
    have hsecond : ∀ a ∈ items,
        Library.containsItem (Library.add st items).1 a = true := by
      intro a ha
      rw [containsItem_eq_keyMem, hadd]
      show keyMem (insAll st.contents _) a.key = true
      rw [keyMem_insAll]
      by_cases hc : Library.containsItem st a
      · rw [containsItem_eq_keyMem] at hc
        rw [hc, Bool.true_or]
      · have hmem : a ∈ (items.filter
            (fun b => ! Library.containsItem st b)).dedup :=
          (hmemacc a).mpr ⟨ha, by simpa using hc⟩
        have hany : ((items.filter
            (fun b => ! Library.containsItem st b)).dedup).any
              (fun it => decide (it.key = a.key)) = true :=
          List.any_eq_true.mpr ⟨a, hmem, by simp⟩
        rw [hany, Bool.or_true]
    have hfilter2 : items.filter
        (fun b => ! Library.containsItem (Library.add st items).1 b) = [] := by
      rw [List.filter_eq_nil_iff]
      intro a ha
      simp [hsecond a ha]
    refine ⟨?_, ?_, ?_, ?_, ?_, hcont, ?_, ?_⟩
    · intro it
      rw [hadd]
      show it ∈ ((items.filter
        (fun b => ! Library.containsItem st b)).dedup).toFinset ↔ _
      rw [List.mem_toFinset]
      exact hmemacc it
    · intro it hit
      rw [hadd] at hit ⊢
      rw [List.mem_toFinset] at hit
      exact keyGet_insAll_mem st.contents _ it hit hinj2
    · intro k hk
      rw [hadd] at hk ⊢
      refine keyGet_insAll_notin st.contents _ k ?_
      intro a ha
      exact hk a (List.mem_toFinset.mpr ha)
    · intro _
      rw [hadd]
      exact ⟨rfl, rfl⟩
    · intro h
      rw [hadd] at h
      replace h := (List.toFinset_eq_empty_iff _).mp h
      rw [h] at hacc
      exact absurd rfl hacc
    · rw [add_of_all_present (Library.add st items).1 items hsecond]
    · rw [add_of_all_present (Library.add st items).1 items hsecond]

theorem add_spec_witness :
    (∀ a ∈ [(⟨1, 5⟩ : Item)], ∀ b ∈ [(⟨1, 5⟩ : Item)],
        a.key = b.key → a = b) ∧
    Keyed ([] : Contents) ∧
    keyGet (Library.add ⟨0, none, [], false, []⟩ [⟨1, 5⟩]).1.contents 1 =
      some ⟨1, 5⟩ :=
  ⟨by decide, by decide,
    (add_spec ⟨0, none, [], false, []⟩ [⟨1, 5⟩] (by decide)
      (by decide)).2.1 ⟨1, 5⟩ (by decide)⟩

/-- C2: over well-keyed input (distinct items carry distinct keys) and a
well-formed dict state, `remove` filters the input to the items present
in the library (membership by key), completes without error, deletes each
filtered item's key from the contents leaving all other keys untouched,
sets `dirty`, emits exactly one `removed` signal carrying exactly the
removed set when it is non-empty, and returns the removed set; when no
input item is present it returns the empty set, emits nothing and leaves
contents and `dirty` unchanged. -/
theorem remove_spec (st : LibState) (items : List Item)
    (hinj : ∀ a ∈ items, ∀ b ∈ items, a.key = b.key → a = b)
    (hnd : NodupKeys st.contents) :
    ∃ r, Library.remove st items = some r ∧
      (∀ it, it ∈ r.2 ↔ it ∈ items ∧ Library.containsItem st it = true) ∧
      (∀ it ∈ r.2, keyMem r.1.contents it.key = false) ∧
      (∀ k, (∀ it ∈ r.2, it.key ≠ k) →
          keyGet r.1.contents k = keyGet st.contents k) ∧
      (r.2 ≠ ∅ → r.1.dirty = true ∧
          r.1.events = st.events ++ [Event.removed r.2]) ∧
      (r.2 = ∅ → r.1 = st) := by
  by_cases hrem :
      ((items.filter (fun b => Library.containsItem st b)).dedup).isEmpty
  · have hrm : Library.remove st items = some (st, (∅ : Finset Item)) := by
      simp [Library.remove, hrem]
    have hnone : ∀ a ∈ items, ¬ Library.containsItem st a = true := by
      have h1 : items.filter (fun b => Library.containsItem st b) = [] :=
        (List.dedup_eq_nil _).mp (List.isEmpty_iff.mp hrem)
      intro a ha
      exact List.filter_eq_nil_iff.mp h1 a ha
    refine ⟨(st, ∅), hrm, ?_, ?_, ?_, ?_, ?_⟩
    · intro it
      simp only [Finset.not_mem_empty, false_iff]
      rintro ⟨hit, hc⟩
      exact hnone it hit hc
    · intro it hit
      simp at hit
    · intro k _
      rfl
    · intro h
      exact absurd rfl h
    · intro _
      rfl
  · have hmem2 : ∀ it ∈ (items.filter
        (fun b => Library.containsItem st b)).dedup,
        keyMem st.contents it.key = true := by
      intro it hit
      have := (List.mem_filter.mp (List.mem_dedup.mp hit)).2
      rwa [containsItem_eq_keyMem] at this
    have hsub : ∀ a ∈ (items.filter
        (fun b => Library.containsItem st b)).dedup, a ∈ items :=
      fun a ha => (List.mem_filter.mp (List.mem_dedup.mp ha)).1
    obtain ⟨m2, hda, hnd2, hchar⟩ := delAll_spec
      ((items.filter (fun b => Library.containsItem st b)).dedup)
      st.contents hnd hmem2
      (fun a ha b hb => hinj a (hsub a ha) b (hsub b hb))
      (List.nodup_dedup _)
    have hrm : Library.remove st items =
        some (LibState.mk st.id st.librarian m2 true
            (st.events ++
              [Event.removed ((items.filter
                (fun b => Library.containsItem st b)).dedup).toFinset]),
          ((items.filter
            (fun b => Library.containsItem st b)).dedup).toFinset) := by
      simp [Library.remove, hrem, hda]
    refine ⟨_, hrm, ?_, ?_, ?_, ?_, ?_⟩
    · intro it
      show it ∈ ((items.filter
        (fun b => Library.containsItem st b)).dedup).toFinset ↔ _
      rw [List.mem_toFinset, List.mem_dedup, List.mem_filter]
    · intro it hit
      show keyMem m2 it.key = false
      rw [List.mem_toFinset] at hit
      have hany : ((items.filter
          (fun b => Library.containsItem st b)).dedup).any
            (fun b => decide (b.key = it.key)) = true :=
        List.any_eq_true.mpr ⟨it, hit, by simp⟩
      rw [keyMem, hchar it.key, if_pos hany]
      rfl
    · intro k hk
      show keyGet m2 k = keyGet st.contents k
      have hany : ((items.filter
          (fun b => Library.containsItem st b)).dedup).any
            (fun b => decide (b.key = k)) = false := by
        rw [List.any_eq_false]
        intro b hb
        simpa using hk b (List.mem_toFinset.mpr hb)
      rw [hchar k, if_neg (by simp [hany])]
    · intro _
      exact ⟨rfl, rfl⟩
    · intro h
      replace h := (List.toFinset_eq_empty_iff _).mp h
      rw [h] at hrem
      exact absurd rfl hrem

theorem remove_spec_witness :
    (∀ a ∈ [(⟨1, 5⟩ : Item)], ∀ b ∈ [(⟨1, 5⟩ : Item)],
        a.key = b.key → a = b) ∧
    NodupKeys [(1, (⟨1, 5⟩ : Item)), (2, ⟨2, 7⟩)] ∧
    ∃ r, Library.remove ⟨0, none, [(1, ⟨1, 5⟩), (2, ⟨2, 7⟩)], false, []⟩
        [⟨1, 5⟩] = some r ∧ keyMem r.1.contents 1 = false := by
  refine ⟨by decide, by decide, ?_⟩
  obtain ⟨r, h1, h2, h3, _⟩ := remove_spec
    ⟨0, none, [(1, ⟨1, 5⟩), (2, ⟨2, 7⟩)], false, []⟩ [⟨1, 5⟩]
    (by decide) (by decide)
  exact ⟨r, h1, h3 ⟨1, 5⟩ ((h2 ⟨1, 5⟩).mpr ⟨by decide, by decide⟩)⟩

/-- C5: `save` never raises once a target filename resolves, and clears
`dirty` exactly when the whole write succeeds: if directory creation
fails with an I/O error, or encoding fails with a serialization error, or
the write fails with an I/O error, the attempt is abandoned (the
exception is caught, so some result is still returned) and `dirty` keeps
whatever value it had before the call; only the fully successful path
sets `dirty` to `false`. -/
theorem save_dirty_spec (pl : PickLib) (disk : Disk) (fnArg : Option String)
    (encode : List Item → Except Unit Bytes) (mkdirOk writeOk : Bool)
    (fn : String) (hfn : resolveName fnArg pl.filename = some fn) :
    ∃ r, save pl disk fnArg encode mkdirOk writeOk = some r ∧
      ((mkdirOk = false ∨
          encode (Library.get_content pl.lib) = .error () ∨
          writeOk = false) →
        r.1.lib.dirty = pl.lib.dirty) ∧
      (mkdirOk = true → writeOk = true →
        (∃ b, encode (Library.get_content pl.lib) = .ok b) →
        r.1.lib.dirty = false) := by
  cases hmk : mkdirOk with
  | false =>
    refine ⟨(pl, disk), ?_, ?_, ?_⟩
    · simp [save, hfn]
    · intro _; rfl
    · intro h; cases h
  | true =>
    cases henc : encode (Library.get_content pl.lib) with
    | error e =>
      refine ⟨(pl, disk), ?_, ?_, ?_⟩
      · simp [save, hfn, henc, atomic_save]
      · intro _; rfl
      · intro _ _ hb
        obtain ⟨b, hb⟩ := hb
        cases hb
    | ok b =>
      cases hw : writeOk with
      | false =>
        refine ⟨(pl, disk), ?_, ?_, ?_⟩
        · simp [save, hfn, henc, hw, atomic_save]
        · intro _; rfl
        · intro _ h; cases h
      | true =>
        refine ⟨({ pl with lib := { pl.lib with dirty := false } },
            fun p => if p = fn then some b else disk p), ?_, ?_, ?_⟩
        · simp [save, hfn, henc, hw, atomic_save]
        · intro h
          rcases h with h | h | h
          · cases h
          · cases h
          · cases h
        · intro _ _ _; rfl

theorem save_dirty_spec_witness :
    resolveName (some "lib.db")
        (⟨⟨0, none, [], true, []⟩, none⟩ : PickLib).filename
      = some "lib.db" ∧
    ∃ r, save ⟨⟨0, none, [], true, []⟩, none⟩ (fun _ => none)
        (some "lib.db") (fun _ => .error ()) true true = some r ∧
      r.1.lib.dirty = true := by
  refine ⟨rfl, ?_⟩
  obtain ⟨r, h1, h2, _⟩ := save_dirty_spec ⟨⟨0, none, [], true, []⟩, none⟩
    (fun _ => none) (some "lib.db") (fun _ => .error ()) true true
    "lib.db" rfl
  exact ⟨r, h1, by rw [h2 (Or.inr (Or.inl rfl))]⟩

/-- C6: `save` is atomic with respect to the target file: every failed
attempt (directory creation failure, a serialization error during
encoding — the claim's simulated mid-save failure — or a write error)
leaves the whole filesystem, in particular the previously saved bytes at
the target path, unchanged; a successful attempt places the complete
encoded payload at the target path and touches no other path, so no
half-written file is ever observable there. -/
theorem save_atomic_spec (pl : PickLib) (disk : Disk)
    (fnArg : Option String) (encode : List Item → Except Unit Bytes)
    (mkdirOk writeOk : Bool) (fn : String)
    (hfn : resolveName fnArg pl.filename = some fn) :
    ∃ r, save pl disk fnArg encode mkdirOk writeOk = some r ∧
      ((mkdirOk = false ∨
          encode (Library.get_content pl.lib) = .error () ∨
          writeOk = false) →
        r.2 = disk) ∧
      (mkdirOk = true → writeOk = true →
        ∀ b, encode (Library.get_content pl.lib) = .ok b →
          r.2 fn = some b ∧ ∀ p, p ≠ fn → r.2 p = disk p) := by
  cases hmk : mkdirOk with
  | false =>
    refine ⟨(pl, disk), ?_, ?_, ?_⟩
    · simp [save, hfn]
    · intro _; rfl
    · intro h; cases h
  | true =>
    cases henc : encode (Library.get_content pl.lib) with
    | error e =>
      refine ⟨(pl, disk), ?_, ?_, ?_⟩
      · simp [save, hfn, henc, atomic_save]
      · intro _; rfl
      · intro _ _ b hb
        cases hb
    | ok b =>
      cases hw : writeOk with
      | false =>
        refine ⟨(pl, disk), ?_, ?_, ?_⟩
        · simp [save, hfn, henc, hw, atomic_save]
        · intro _; rfl
        · intro _ h; cases h
      | true =>
        refine ⟨({ pl with lib := { pl.lib with dirty := false } },
            fun p => if p = fn then some b else disk p), ?_, ?_, ?_⟩
        · simp [save, hfn, henc, hw, atomic_save]
        · intro h
          rcases h with h | h | h
          · cases h
          · cases h
          · cases h
        · intro _ _ b2 hb2
          rw [Except.ok.injEq] at hb2
          subst hb2
          exact ⟨if_pos rfl, fun p hp => if_neg hp⟩

theorem save_atomic_spec_witness :
    resolveName (some "lib.db")
        (⟨⟨0, none, [], true, []⟩, none⟩ : PickLib).filename
      = some "lib.db" ∧
    ∃ r, save ⟨⟨0, none, [], true, []⟩, none⟩
        (fun p => if p = "lib.db" then some [7] else none)
        (some "lib.db") (fun _ => .error ()) true true = some r ∧
      r.2 "lib.db" = some [7] := by
  refine ⟨rfl, ?_⟩
  obtain ⟨r, h1, h2, _⟩ := save_atomic_spec ⟨⟨0, none, [], true, []⟩, none⟩
    (fun p => if p = "lib.db" then some [7] else none)
    (some "lib.db") (fun _ => .error ()) true true "lib.db" rfl
  refine ⟨r, h1, ?_⟩
  rw [h2 (Or.inr (Or.inl rfl))]
  rfl

/-- C7: `load` (a total function, so it never raises) records the path
as the default save target and fires no signal in any case; an
unreadable file loads nothing and touches nothing; a read that decodes
with a serialization error loads nothing and copies the raw bytes to the
sibling `<path>.not-valid` when the copy succeeds (touching no other
path) and, when the copy itself fails, is logged leaving the filesystem
unchanged; a successful decode bulk-loads the items via `_load_init`. -/
theorem load_spec (pl : PickLib) (disk : Disk) (fn : String)
    (decode : Bytes → Except Unit (List Item)) (copyOk : Bool) :
    (load pl disk fn decode copyOk).1.filename = some fn ∧
    (load pl disk fn decode copyOk).1.lib.events = pl.lib.events ∧
    (disk fn = none →
      (load pl disk fn decode copyOk).1.lib = pl.lib ∧
      (load pl disk fn decode copyOk).2 = disk) ∧
    (∀ data, disk fn = some data → decode data = .error () →
      (load pl disk fn decode copyOk).1.lib = pl.lib ∧
      (copyOk = true →
        (load pl disk fn decode copyOk).2 (fn ++ ".not-valid") = some data ∧
        ∀ p, p ≠ fn ++ ".not-valid" →
          (load pl disk fn decode copyOk).2 p = disk p) ∧
      (copyOk = false → (load pl disk fn decode copyOk).2 = disk)) ∧
    (∀ data items, disk fn = some data → decode data = .ok items →
      (load pl disk fn decode copyOk).1.lib =
        Library._load_init pl.lib items ∧
      (load pl disk fn decode copyOk).2 = disk) := by
  have hitems : ∀ (h2 : Disk × List Item),
      _load_items disk fn decode copyOk = h2 →
      (load pl disk fn decode copyOk).1.lib =
        Library._load_init pl.lib h2.2 ∧
      (load pl disk fn decode copyOk).2 = h2.1 := by
    intro h2 hh
    constructor
    · show Library._load_init pl.lib
        (_load_items disk fn decode copyOk).2 = _
      rw [hh]
    · show (_load_items disk fn decode copyOk).1 = _
      rw [hh]
  refine ⟨rfl, rfl, ?_, ?_, ?_⟩
  · intro hd
    have hh : _load_items disk fn decode copyOk = (disk, []) := by
      rw [_load_items, hd]
    obtain ⟨h1, h2⟩ := hitems _ hh
    exact ⟨h1, h2⟩
  · intro data hd hdec
    by_cases hc : copyOk = true
    · have hh : _load_items disk fn decode copyOk =
          (fun p => if p = fn ++ ".not-valid" then some data else disk p,
            []) := by
        rw [_load_items, hd]
        simp only [hdec, hc, if_pos]
      obtain ⟨h1, h2⟩ := hitems _ hh
      refine ⟨h1, ?_, ?_⟩
      · intro _
        rw [h2]
        exact ⟨if_pos rfl, fun p hp => if_neg hp⟩
      · intro hc2
        rw [hc2] at hc
        exact Bool.noConfusion hc
    · have hc2 : copyOk = false := by
        cases copyOk
        · rfl
        · exact absurd rfl hc
      have hh : _load_items disk fn decode copyOk = (disk, []) := by
        rw [_load_items, hd]
        simp only [hdec, hc2]
        rfl
      obtain ⟨h1, h2⟩ := hitems _ hh
      exact ⟨h1, fun hcc => absurd hcc hc, fun _ => h2⟩
  · intro data items hd hdec
    have hh : _load_items disk fn decode copyOk = (disk, items) := by
      rw [_load_items, hd]
      simp only [hdec]
    exact hitems _ hh

theorem load_spec_witness :
    ((fun p => if p = "lib.db" then some [1, 2, 3] else none) : Disk)
        "lib.db" = some [1, 2, 3] ∧
    (load ⟨⟨0, none, [], false, []⟩, none⟩
        (fun p => if p = "lib.db" then some [1, 2, 3] else none)
        "lib.db" (fun _ => .error ()) true).1.lib =
      (⟨0, none, [], false, []⟩ : LibState) ∧
    (load ⟨⟨0, none, [], false, []⟩, none⟩
        (fun p => if p = "lib.db" then some [1, 2, 3] else none)
        "lib.db" (fun _ => .error ()) true).2 "lib.db.not-valid" =
      some [1, 2, 3] := by
  have h := (load_spec ⟨⟨0, none, [], false, []⟩, none⟩
    (fun p => if p = "lib.db" then some [1, 2, 3] else none)
    "lib.db" (fun _ => .error ()) true).2.2.2.1 [1, 2, 3] (by decide) rfl
  refine ⟨by decide, h.1, ?_⟩
  have h2 := (h.2.1 rfl).1
  have he : "lib.db" ++ ".not-valid" = "lib.db.not-valid" := by decide
  rw [he] at h2
  exact h2

theorem iterLevel_sound (rp : String → String) (ex : List String)
    (sh : Bool) (dp : String) (entries : List FSEntry) (p : String)
    (hp : p ∈ iterLevel rp ex sh dp entries) :
    ∃ full, full ∈ allFiles dp entries ∧ p = rp full ∧
      skipPath ex sh full = false ∧ skipPath ex sh p = false ∧
      (sh = true → full ∈ hiddenFreeFiles dp entries) := by
  match entries with
  | [] =>
    simp [iterLevel, iterFiles, iterDirs] at hp
  | .file fn :: rest =>
    rw [iterLevel] at hp
    simp only [iterFiles, iterDirs, List.append_assoc,
      List.mem_append] at hp
    rcases hp with hp | hp | hp
    · by_cases h1 : skipPath ex sh (pjoin dp fn)
      · rw [if_pos h1] at hp
        simp at hp
      · rw [if_neg h1] at hp
        by_cases h2 : skipPath ex sh (rp (pjoin dp fn))
        · rw [if_pos h2] at hp
          simp at hp
        · rw [if_neg h2, List.mem_singleton] at hp
          subst hp
          refine ⟨pjoin dp fn, ?_, rfl, ?_, ?_, ?_⟩
          · simp [allFiles]
          · simpa using h1
          · simpa using h2
          · intro _
            simp [hiddenFreeFiles]
    · obtain ⟨full, h1, h2, h3, h4, h5⟩ :=
        iterLevel_sound rp ex sh dp rest p
          (by rw [iterLevel]; exact List.mem_append.mpr (Or.inl hp))
      exact ⟨full, by simp [allFiles, h1], h2, h3, h4,
        fun hsh => by simp [hiddenFreeFiles, h5 hsh]⟩
    · obtain ⟨full, h1, h2, h3, h4, h5⟩ :=
        iterLevel_sound rp ex sh dp rest p
          (by rw [iterLevel]; exact List.mem_append.mpr (Or.inr hp))
      exact ⟨full, by simp [allFiles, h1], h2, h3, h4,
        fun hsh => by simp [hiddenFreeFiles, h5 hsh]⟩
  | .dir dn cs :: rest =>
    rw [iterLevel] at hp
    simp only [iterFiles, iterDirs, List.mem_append] at hp
    rcases hp with hp | hp | hp
    · obtain ⟨full, h1, h2, h3, h4, h5⟩ :=
        iterLevel_sound rp ex sh dp rest p
          (by rw [iterLevel]; exact List.mem_append.mpr (Or.inl hp))
      exact ⟨full, by simp [allFiles, h1], h2, h3, h4,
        fun hsh => by simp [hiddenFreeFiles]; right; exact h5 hsh⟩
    · by_cases hpr : sh && ishidden (pjoin dp dn)
      · rw [if_pos hpr] at hp
        simp at hp
      · rw [if_neg hpr] at hp
        obtain ⟨full, h1, h2, h3, h4, h5⟩ :=
          iterLevel_sound rp ex sh (pjoin dp dn) cs p
            (by rw [iterLevel]; exact hp)
        refine ⟨full, by simp [allFiles]; left; exact h1, h2, h3, h4, ?_⟩
        intro hsh
        have hhid : ishidden (pjoin dp dn) = false := by
          rw [hsh] at hpr
          simpa using hpr
        simp only [hiddenFreeFiles, List.mem_append]
        left
        rw [if_neg (by rw [hhid]; exact Bool.noConfusion)]
        exact h5 hsh
    · obtain ⟨full, h1, h2, h3, h4, h5⟩ :=
        iterLevel_sound rp ex sh dp rest p
          (by rw [iterLevel]; exact List.mem_append.mpr (Or.inr hp))
      exact ⟨full, by simp [allFiles, h1], h2, h3, h4,
        fun hsh => by simp [hiddenFreeFiles]; right; exact h5 hsh⟩
termination_by sizeOf entries

/-- C9: when the root itself is hidden and `skip_hidden` is set,
`iter_paths` yields nothing; and every yielded path is the
`realpath`-resolved image of a file of the walked tree whose full path
passed the exclude/hidden `skip` test and whose resolved path passed the
same test again — so no yielded path starts with any exclude string and,
with `skip_hidden` set, the yielded file lies under no hidden directory
of the walked tree. -/
theorem iter_paths_spec (rp : String → String) (root : String)
    (entries : List FSEntry) (ex : List String) (sh : Bool) :
    (sh = true → ishidden root = true →
        iter_paths rp root entries ex sh = []) ∧
    (∀ p ∈ iter_paths rp root entries ex sh,
      (∀ e ∈ ex, p.startsWith e = false) ∧
      ∃ full, full ∈ allFiles root entries ∧ p = rp full ∧
        skipPath ex sh full = false ∧ skipPath ex sh p = false ∧
        (sh = true → full ∈ hiddenFreeFiles root entries)) := by
  constructor
  · intro h1 h2
    rw [iter_paths, if_pos (by rw [h1, h2]; rfl)]
  · intro p hp
    by_cases hr : sh && ishidden root
    · rw [iter_paths, if_pos hr] at hp
      cases hp
    · rw [iter_paths, if_neg hr] at hp
      obtain ⟨full, h1, h2, h3, h4, h5⟩ :=
        iterLevel_sound rp ex sh root entries p hp
      refine ⟨?_, full, h1, h2, h3, h4, h5⟩
      intro e he
      have h6 : ex.any (fun e => p.startsWith e) = false := by
        rw [skipPath] at h4
        exact (Bool.or_eq_false_iff.mp h4).2
      have := List.any_eq_false.mp h6 e he
      simpa using this

theorem iter_paths_spec_witness :
    "/r/a.txt" ∈ iter_paths id "/r"
        [.dir ".hidden" [.file "x"], .file "a.txt", .dir "b" [.file "c.txt"]]
        [] true ∧
    (∀ e ∈ ([] : List String), "/r/a.txt".startsWith e = false) ∧
    ∃ full, full ∈ allFiles "/r"
        [.dir ".hidden" [.file "x"], .file "a.txt",
          .dir "b" [.file "c.txt"]] ∧
      "/r/a.txt" = id full ∧
      skipPath [] true full = false ∧ skipPath [] true "/r/a.txt" = false ∧
      (true = true → full ∈ hiddenFreeFiles "/r"
        [.dir ".hidden" [.file "x"], .file "a.txt",
          .dir "b" [.file "c.txt"]]) := by
  have hroot : (true && ishidden "/r") = false := by decide
  have d1 : (true && ishidden (pjoin "/r" ".hidden")) = true := by decide
  have d2 : (true && ishidden (pjoin "/r" "b")) = false := by decide
  have e1 : skipPath [] true (pjoin "/r" "a.txt") = false := by decide
  have e2 : skipPath [] true (pjoin (pjoin "/r" "b") "c.txt") = false := by
    decide
  have hval : iter_paths id "/r"
      [.dir ".hidden" [.file "x"], .file "a.txt", .dir "b" [.file "c.txt"]]
      [] true = [pjoin "/r" "a.txt", pjoin (pjoin "/r" "b") "c.txt"] := by
    simp only [iter_paths, hroot, Bool.false_eq_true, if_false, iterLevel,
      iterFiles, iterDirs, d1, d2, e1, e2, id_eq, if_true,
      List.append_nil, List.nil_append, Bool.true_eq_false,
      List.cons_append]
  have hmem : "/r/a.txt" ∈ iter_paths id "/r"
      [.dir ".hidden" [.file "x"], .file "a.txt", .dir "b" [.file "c.txt"]]
      [] true := by
    rw [hval]
    have hpj : pjoin "/r" "a.txt" = "/r/a.txt" := by decide
    rw [hpj]
    exact List.mem_cons_self _ _
  refine ⟨hmem, ?_⟩
  exact (iter_paths_spec id "/r"
    [.dir ".hidden" [.file "x"], .file "a.txt", .dir "b" [.file "c.txt"]]
    [] true).2 "/r/a.txt" hmem

theorem changed_spec_witness :
    (([(⟨1, 5⟩ : Item)] : List Item) ≠ []) ∧
    (Library.changed ⟨0, none, [(1, ⟨1, 5⟩)], false, []⟩ [⟨1, 5⟩]).dirty
        = true ∧
    (Library.changed ⟨0, none, [(1, ⟨1, 5⟩)], false, []⟩ [⟨1, 5⟩]).events
        = [Event.changed ({⟨1, 5⟩} : Finset Item)] := by
  refine ⟨by decide, ?_⟩
  have h := (changed_spec ⟨0, none, [(1, ⟨1, 5⟩)], false, []⟩
    [⟨1, 5⟩] (by decide)).2.2 (by decide)
  have h2 := h.2 (by decide)
  rw [h2]
  exact ⟨rfl, by decide⟩

end QL
